import Mathlib

/-!
Verification of the terraform-docs documentation generator
(scripts/docs/generate.go): a shallow embedding of the command-tree
walker, page renderer, example embedder and filename derivation, with
theorems settling the specification claims about them.

Strings are modelled as Lean `String` (lists of characters); the Go
string helpers `strings.Replace` (n = -1) and `strings.Split` are
embedded as fuel-indexed structural recursions so that every function
evaluates inside the kernel.
-/

set_option autoImplicit false

namespace TfDocs

/-- Boolean prefix test on character lists (Go `strings.HasPrefix` on the
spelled-out characters). -/
def isPref : List Char → List Char → Bool
  | [], _ => true
  | _ :: _, [] => false
  | a :: as, b :: bs => a == b && isPref as bs

theorem isPref_length {p l : List Char} (h : isPref p l = true) :
    p.length ≤ l.length := by
  induction p generalizing l with
  | nil => exact Nat.zero_le _
  | cons a as ih =>
    cases l with
    | nil => simp [isPref] at h
    | cons b bs =>
      simp only [isPref, Bool.and_eq_true] at h
      simpa [List.length_cons, Nat.succ_le_succ_iff] using ih h.2

theorem isPref_iff_take {p l : List Char} :
    isPref p l = true ↔ l.take p.length = p := by
  induction p generalizing l with
  | nil => simp [isPref]
  | cons a as ih =>
    cases l with
    | nil => simp [isPref]
    | cons b bs =>
      simp only [isPref, Bool.and_eq_true, beq_iff_eq, List.length_cons,
        List.take_succ_cons, List.cons.injEq]
      constructor
      · rintro ⟨rfl, h⟩; exact ⟨rfl, (ih).mp h⟩
      · rintro ⟨rfl, h⟩; exact ⟨rfl, (ih).mpr h⟩

theorem isPref_append_self (a b : List Char) : isPref a (a ++ b) = true := by
  induction a with
  | nil => rfl
  | cons x xs ih => simp [isPref, ih]

theorem isPref_trans {a b c : List Char} (h1 : isPref a b = true)
    (h2 : isPref b c = true) : isPref a c = true := by
  have hlen : a.length ≤ b.length := isPref_length h1
  rw [isPref_iff_take] at h1 h2 ⊢
  calc c.take a.length = (c.take b.length).take a.length := by
        rw [List.take_take, Nat.min_eq_left hlen]
    _ = b.take a.length := by rw [h2]
    _ = a := h1

theorem isPref_mono_append {p l : List Char} (t : List Char)
    (h : isPref p l = true) : isPref p (l ++ t) = true := by
  have hlen : p.length ≤ l.length := isPref_length h
  rw [isPref_iff_take] at h ⊢
  rw [List.take_append_eq_append_take, Nat.sub_eq_zero_of_le hlen,
    List.take_zero, List.append_nil, h]

/-- Fuel-indexed engine of Go `strings.Replace(s, pat, rep, -1)`:
scan left to right, replacing each non-overlapping occurrence of `pat`
by `rep`.  One unit of fuel is spent per examined position, so fuel
`s.length` always suffices. -/
def replaceFuel (pat rep : List Char) : Nat → List Char → List Char
  | _, [] => []
  | 0, s => s
  | n + 1, c :: rest =>
    if pat ≠ [] ∧ isPref pat (c :: rest) = true then
      rep ++ replaceFuel pat rep n (rest.drop (pat.length - 1))
    else
      c :: replaceFuel pat rep n rest

/-- Fuel-indexed engine of Go `strings.Split(s, pat)`. -/
def splitFuel (pat : List Char) : Nat → List Char → List (List Char)
  | _, [] => [[]]
  | 0, s => [s]
  | n + 1, c :: rest =>
    if pat ≠ [] ∧ isPref pat (c :: rest) = true then
      [] :: splitFuel pat n (rest.drop (pat.length - 1))
    else
      match splitFuel pat n rest with
      | [] => [[c]]
      | l :: ls => (c :: l) :: ls

theorem splitFuel_ne_nil (pat : List Char) :
    ∀ (n : Nat) (s : List Char), splitFuel pat n s ≠ [] := by
  intro n
  induction n with
  | zero => intro s; cases s <;> simp [splitFuel]
  | succ n ih =>
    intro s
    cases s with
    | nil => simp [splitFuel]
    | cons c rest =>
      rw [splitFuel]
      split
      · simp
      · rcases h : splitFuel pat n rest with _ | ⟨l, ls⟩
        · simp
        · simp

theorem replaceFuel_ge (pat rep : List Char) :
    ∀ (m : Nat) (s : List Char), s.length ≤ m →
      ∀ (n : Nat), s.length ≤ n →
        replaceFuel pat rep m s = replaceFuel pat rep n s := by
  intro m
  induction m with
  | zero =>
    intro s hs n _
    have : s = [] := List.eq_nil_of_length_eq_zero (Nat.le_zero.mp hs)
    subst this
    cases n <;> rfl
  | succ m ih =>
    intro s hs n hn
    cases s with
    | nil => cases n <;> rfl
    | cons c rest =>
      cases n with
      | zero => simp at hn
      | succ n =>
        rw [replaceFuel, replaceFuel]
        have hrest : rest.length ≤ m := Nat.lt_succ_iff.mp hs
        have hrestn : rest.length ≤ n := Nat.lt_succ_iff.mp hn
        split
        · have hd : (rest.drop (pat.length - 1)).length ≤ rest.length := by
            simp [List.length_drop]
          rw [ih _ (Nat.le_trans hd hrest) n (Nat.le_trans hd hrestn)]
        · rw [ih _ hrest n hrestn]

theorem splitFuel_ge (pat : List Char) :
    ∀ (m : Nat) (s : List Char), s.length ≤ m →
      ∀ (n : Nat), s.length ≤ n →
        splitFuel pat m s = splitFuel pat n s := by
  intro m
  induction m with
  | zero =>
    intro s hs n _
    have : s = [] := List.eq_nil_of_length_eq_zero (Nat.le_zero.mp hs)
    subst this
    cases n <;> rfl
  | succ m ih =>
    intro s hs n hn
    cases s with
    | nil => cases n <;> rfl
    | cons c rest =>
      cases n with
      | zero => simp at hn
      | succ n =>
        rw [splitFuel, splitFuel]
        have hrest : rest.length ≤ m := Nat.lt_succ_iff.mp hs
        have hrestn : rest.length ≤ n := Nat.lt_succ_iff.mp hn
        split
        · have hd : (rest.drop (pat.length - 1)).length ≤ rest.length := by
            simp [List.length_drop]
          rw [ih _ (Nat.le_trans hd hrest) n (Nat.le_trans hd hrestn)]
        · rw [ih _ hrest n hrestn]

/-- Go `strings.Replace(s, pat, rep, -1)` on character lists. -/
def replaceAllL (pat rep s : List Char) : List Char :=
  replaceFuel pat rep s.length s

/-- Go `strings.Split(s, pat)` on character lists. -/
def splitOnL (pat s : List Char) : List (List Char) :=
  splitFuel pat s.length s

theorem replaceAllL_nil (pat rep : List Char) : replaceAllL pat rep [] = [] := rfl

theorem replaceAllL_cons (pat rep : List Char) (c : Char) (rest : List Char) :
    replaceAllL pat rep (c :: rest) =
      if pat ≠ [] ∧ isPref pat (c :: rest) = true then
        rep ++ replaceAllL pat rep (rest.drop (pat.length - 1))
      else
        c :: replaceAllL pat rep rest := by
  rw [replaceAllL, List.length_cons, replaceFuel]
  split
  · rw [replaceAllL,
      replaceFuel_ge pat rep rest.length _
        (by simp [List.length_drop])
        (rest.drop (pat.length - 1)).length (Nat.le_refl _)]
  · rw [replaceAllL]

theorem splitOnL_nil (pat : List Char) : splitOnL pat [] = [[]] := rfl

theorem splitOnL_cons (pat : List Char) (c : Char) (rest : List Char) :
    splitOnL pat (c :: rest) =
      if pat ≠ [] ∧ isPref pat (c :: rest) = true then
        [] :: splitOnL pat (rest.drop (pat.length - 1))
      else
        match splitOnL pat rest with
        | [] => [[c]]
        | l :: ls => (c :: l) :: ls := by
  rw [splitOnL, List.length_cons, splitFuel]
  split
  · rw [splitOnL,
      splitFuel_ge pat rest.length _
        (by simp [List.length_drop])
        (rest.drop (pat.length - 1)).length (Nat.le_refl _)]
  · rw [splitOnL]

theorem splitOnL_ne_nil (pat s : List Char) : splitOnL pat s ≠ [] :=
  splitFuel_ne_nil pat s.length s

/-- Interleave `sep` between the chunks (Go `strings.Join`). -/
def interL (sep : List Char) : List (List Char) → List Char
  | [] => []
  | l :: ls => l ++ (ls.map (fun x => sep ++ x)).flatten

theorem interL_cons (sep : List Char) (l : List Char) (ls : List (List Char)) :
    interL sep (l :: ls) = l ++ (ls.map (fun x => sep ++ x)).flatten := rfl

theorem sep_append_interL (sep : List Char) {ls : List (List Char)}
    (h : ls ≠ []) : sep ++ interL sep ls = (ls.map (fun x => sep ++ x)).flatten := by
  cases ls with
  | nil => exact absurd rfl h
  | cons l ls => simp [interL_cons, List.append_assoc]

/-- Go documents `strings.Replace(s, pat, rep, -1)` as
`strings.Join(strings.Split(s, pat), rep)`; the two embeddings agree. -/
theorem replaceFuel_eq_interL (pat rep : List Char) :
    ∀ (n : Nat) (s : List Char),
      replaceFuel pat rep n s = interL rep (splitFuel pat n s) := by
  intro n
  induction n with
  | zero => intro s; cases s <;> simp [replaceFuel, splitFuel, interL]
  | succ n ih =>
    intro s
    cases s with
    | nil => simp [replaceFuel, splitFuel, interL]
    | cons c rest =>
      rw [replaceFuel, splitFuel]
      split
      · rw [ih, interL_cons, List.nil_append]
        exact sep_append_interL rep (splitFuel_ne_nil pat n _)
      · rcases h : splitFuel pat n rest with _ | ⟨l, ls⟩
        · exact absurd h (splitFuel_ne_nil pat n rest)
        · rw [ih, h]
          simp [interL_cons]

theorem replaceAllL_eq_interL (pat rep s : List Char) :
    replaceAllL pat rep s = interL rep (splitOnL pat s) :=
  replaceFuel_eq_interL pat rep s.length s

/-- The characters of the fixed root-program prefix `"terraform-docs-"`. -/
def tdL : List Char := "terraform-docs-".data

/-- The characters of the page-file suffix `".md"`. -/
def mdL : List Char := ".md".data

theorem tdL_ne : tdL ≠ [] := by decide

theorem tdL_len : tdL.length = 15 := by decide

theorem mdL_eq : mdL = ['.', 'm', 'd'] := rfl

theorem dot_not_mem_tdL : ('.' : Char) ∉ tdL := by decide

theorem replaceFuel_mdL (f : Nat) : replaceFuel tdL [] f mdL = mdL := by
  rcases Nat.lt_or_ge f 3 with h | h
  · interval_cases f <;> decide
  · rw [replaceFuel_ge tdL [] f mdL (by exact h) 3 (by decide)]
    decide

theorem isPref_tdL_of_append {c : Char} {s' : List Char}
    (h : isPref tdL (c :: (s' ++ mdL)) = true) : isPref tdL (c :: s') = true := by
  rcases Nat.lt_or_ge (s'.length + 1) 15 with hlt | hge
  · exfalso
    have htake := isPref_iff_take.mp h
    have hfull : (c :: s').take tdL.length = c :: s' :=
      List.take_of_length_le (by simp [tdL_len]; omega)
    have hsplit : (c :: (s' ++ mdL)).take tdL.length
        = (c :: s') ++ mdL.take (tdL.length - (s'.length + 1)) := by
      rw [show c :: (s' ++ mdL) = (c :: s') ++ mdL by simp,
        List.take_append_eq_append_take, hfull, List.length_cons]
    have hdot : ('.' : Char) ∈ tdL := by
      rw [← htake, hsplit]
      refine List.mem_append_right _ ?_
      have hk : 1 ≤ tdL.length - (s'.length + 1) := by rw [tdL_len]; omega
      rcases hn : tdL.length - (s'.length + 1) with _ | k
      · omega
      · simp [mdL_eq]
    exact dot_not_mem_tdL hdot
  · have h0 : tdL.length - (c :: s').length = 0 :=
      Nat.sub_eq_zero_of_le (by simp [tdL_len]; omega)
    have heq : (c :: (s' ++ mdL)).take tdL.length = (c :: s').take tdL.length := by
      rw [show c :: (s' ++ mdL) = (c :: s') ++ mdL by simp,
        List.take_append_eq_append_take, h0, List.take_zero, List.append_nil]
    rw [isPref_iff_take] at h ⊢
    rw [← heq]
    exact h

theorem repl_append_mdL :
    ∀ (m : Nat) (s : List Char), s.length ≤ m →
      replaceFuel tdL [] m (s ++ mdL) = replaceFuel tdL [] m s ++ mdL := by
  intro m
  induction m with
  | zero =>
    intro s hs
    have hnil : s = [] := List.eq_nil_of_length_eq_zero (Nat.le_zero.mp hs)
    subst hnil
    rw [List.nil_append, replaceFuel_mdL]
    rfl
  | succ m ih =>
    intro s hs
    cases s with
    | nil =>
      rw [List.nil_append, replaceFuel_mdL]
      rfl
    | cons c s' =>
      simp only [List.length_cons] at hs
      rw [List.cons_append, replaceFuel, replaceFuel]
      by_cases hp : isPref tdL (c :: s') = true
      · have h1 : isPref tdL (c :: (s' ++ mdL)) = true := by
          have := isPref_mono_append mdL hp
          simpa using this
        have hlen : 15 ≤ s'.length + 1 := by
          have := isPref_length hp
          simpa [tdL_len] using this
        rw [if_pos ⟨tdL_ne, h1⟩, if_pos ⟨tdL_ne, hp⟩]
        have h14 : tdL.length - 1 ≤ s'.length := by rw [tdL_len]; omega
        have hdrop : (s' ++ mdL).drop (tdL.length - 1)
            = s'.drop (tdL.length - 1) ++ mdL := by
          rw [List.drop_append_eq_append_drop, Nat.sub_eq_zero_of_le h14,
            List.drop_zero]
        have hdlen : (s'.drop (tdL.length - 1)).length ≤ m := by
          rw [List.length_drop]
          omega
        rw [hdrop, ih _ hdlen]
        simp
      · have h2 : ¬ isPref tdL (c :: (s' ++ mdL)) = true :=
          fun h => hp (isPref_tdL_of_append h)
        rw [if_neg (fun hc => h2 hc.2), if_neg (fun hc => hp hc.2),
          ih _ (by omega)]
        simp

/-- Appending `".md"` commutes with removing all occurrences of
`"terraform-docs-"`: the suffix cannot take part in any occurrence
because the pattern contains no dot. -/
theorem replaceAllL_append_mdL (s : List Char) :
    replaceAllL tdL [] (s ++ mdL) = replaceAllL tdL [] s ++ mdL := by
  rw [replaceAllL, replaceAllL,
    replaceFuel_ge tdL [] (s ++ mdL).length (s ++ mdL) (Nat.le_refl _)
      (s.length + 3) (by simp [mdL]),
    repl_append_mdL (s.length + 3) s (by omega),
    replaceFuel_ge tdL [] (s.length + 3) s (by omega) s.length (Nat.le_refl _)]

/-- Go `strings.Replace(s, pat, rep, -1)`. -/
def goReplace (s pat rep : String) : String :=
  ⟨replaceAllL pat.data rep.data s.data⟩

/-- Go `strings.Split(s, sep)`. -/
def goSplit (s sep : String) : List String :=
  (splitOnL sep.data s.data).map String.mk

/-- Concatenate a list of strings in order (sequential buffer writes). -/
def joinStr : List String → String
  | [] => ""
  | s :: rest => s ++ joinStr rest

theorem sdata_app (a b : String) : (a ++ b).data = a.data ++ b.data := rfl

theorem joinStr_data : ∀ (L : List String),
    (joinStr L).data = (L.map String.data).flatten := by
  intro L
  induction L with
  | nil => rfl
  | cons s rest ih => simp [joinStr, sdata_app, ih]

theorem empty_sapp (s : String) : "" ++ s = s := by
  apply String.ext
  rw [sdata_app]
  rfl

/-- Split a path string on slashes. -/
def splitSlash (s : String) : List String := goSplit s "/"

/-- Join path segments with slashes. -/
def joinSlash : List String → String
  | [] => ""
  | [s] => s
  | s :: rest => s ++ "/" ++ joinSlash rest

/-- Go `filepath.Join` followed by `Clean`, modelled for the relative,
dot-dot-free paths this program builds: drop empty components, split each
component on slashes, drop empty and `.` segments, and rejoin. -/
def goJoin (parts : List String) : String :=
  joinSlash ((((parts.filter (fun p => p != "")).map splitSlash).flatten).filter
    (fun seg => seg != "" && seg != "."))

/-- The directory part of a slash-joined path. -/
def parentDirOf (p : String) : String := joinSlash (splitSlash p).dropLast

/-- `var basedir = "/docs"` (generate.go line 36). -/
def basedir : String := "/docs"

/-- `var formatdir = "/formats"` (generate.go line 37). -/
def formatdir : String := "/formats"

/-- The file the walker creates for a node:
`filepath.Join("."+basedir, subdir, basename+".md")` (generate.go line 60). -/
def pageFile (subdir basename : String) : String :=
  goJoin ["." ++ basedir, subdir, basename ++ ".md"]

/-- The derived basename of a documentable child page (generate.go
line 54): hyphenate the full command path, then
`strings.Replace(..., "terraform-docs-", "", -1)`. -/
def derivedName (cname : String) : String :=
  goReplace (goReplace cname " " "-") "terraform-docs-" ""

def digitChar (n : Nat) : Char := Char.ofNat (48 + n % 10)

def natToStrAux : Nat → Nat → List Char
  | 0, _ => []
  | f + 1, n =>
    if n < 10 then [digitChar n]
    else natToStrAux f (n / 10) ++ [digitChar (n % 10)]

/-- Decimal rendering of a natural number. -/
def natToStr (n : Nat) : String := ⟨natToStrAux (n + 1) n⟩

def monthAbbrevs : List String :=
  ["Jan", "Feb", "Mar", "Apr", "May", "Jun",
   "Jul", "Aug", "Sep", "Oct", "Nov", "Dec"]

/-- A calendar date, standing in for `time.Now()`. -/
structure Date where
  day : Nat
  month : Nat
  year : Nat
deriving DecidableEq

def pad4 (n : Nat) : String :=
  if n < 10 then "000" ++ natToStr n
  else if n < 100 then "00" ++ natToStr n
  else if n < 1000 then "0" ++ natToStr n
  else natToStr n

/-- Go time layout `"2-Jan-2006"`: day without padding, abbreviated
month, four-digit year (generate.go line 118). -/
def formatDate (d : Date) : String :=
  natToStr d.day ++ "-" ++ monthAbbrevs.getD (d.month - 1) "Jan" ++ "-"
    ++ pad4 d.year

/-- A cobra command node as the external CLI framework supplies it (spec
sections 3 and 6): name token, short and long descriptions, example text,
usage line, runnability, availability and help-topic classification, the
auto-generated-tag switch, the string map read through the `"kind"` key,
the declared local and inherited flag names, and the ordered children. -/
inductive Cmd where
  | mk : (name short long exampleText useLine : String) →
      (runnable available helpTopic disableAutoGen : Bool) →
      (ann : List (String × String)) →
      (flags iflags : List String) →
      (commands : List Cmd) → Cmd

def Cmd.name : Cmd → String
  | .mk v _ _ _ _ _ _ _ _ _ _ _ _ => v

def Cmd.short : Cmd → String
  | .mk _ v _ _ _ _ _ _ _ _ _ _ _ => v

def Cmd.long : Cmd → String
  | .mk _ _ v _ _ _ _ _ _ _ _ _ _ => v

def Cmd.exampleText : Cmd → String
  | .mk _ _ _ v _ _ _ _ _ _ _ _ _ => v

def Cmd.useLine : Cmd → String
  | .mk _ _ _ _ v _ _ _ _ _ _ _ _ => v

def Cmd.runnable : Cmd → Bool
  | .mk _ _ _ _ _ v _ _ _ _ _ _ _ => v

def Cmd.available : Cmd → Bool
  | .mk _ _ _ _ _ _ v _ _ _ _ _ _ => v

def Cmd.helpTopic : Cmd → Bool
  | .mk _ _ _ _ _ _ _ v _ _ _ _ _ => v

def Cmd.disableAutoGen : Cmd → Bool
  | .mk _ _ _ _ _ _ _ _ v _ _ _ _ => v

def Cmd.ann : Cmd → List (String × String)
  | .mk _ _ _ _ _ _ _ _ _ v _ _ _ => v

def Cmd.flags : Cmd → List String
  | .mk _ _ _ _ _ _ _ _ _ _ v _ _ => v

def Cmd.iflags : Cmd → List String
  | .mk _ _ _ _ _ _ _ _ _ _ _ v _ => v

def Cmd.commands : Cmd → List Cmd
  | .mk _ _ _ _ _ _ _ _ _ _ _ _ v => v

def Cmd.withCommands : Cmd → List Cmd → Cmd
  | .mk a b c d e f g h i j k l _, cs => .mk a b c d e f g h i j k l cs

def Cmd.withFlags : Cmd → List String → Cmd
  | .mk a b c d e f g h i j _ l m, fl => .mk a b c d e f g h i j fl l m

def Cmd.withDisable : Cmd → Bool → Cmd
  | .mk a b c d e f g h _ j k l m, v => .mk a b c d e f g h v j k l m

/-- Read a key from the string map; a missing key yields the Go zero
value `""`. -/
def lookupAnn : List (String × String) → String → String
  | [], _ => ""
  | (k, v) :: rest, key => if k = key then v else lookupAnn rest key

/-- The walker skip test (generate.go lines 48-53): a child is processed
iff it is an available command, not an additional help topic, and its
`"kind"` mark equals `"formatter"`. -/
def docFilter (c : Cmd) : Bool :=
  (c.available && !c.helpTopic) &&
    !(lookupAnn c.ann "kind" = "" || lookupAnn c.ann "kind" ≠ "formatter")

/-- The external collaborators of the generator (spec section 6): the
formatter registry (`format.Factory`), the module loader
(`terraform.LoadWithOptions`), the formatter printer, the pflag
`PrintDefaults` rendering, and the current date.  `render` takes the
formatter name and the `ShowColor` setting. -/
structure Env where
  factoryOk : String → Bool
  loadOk : Bool
  printOk : String → Bool
  render : String → Bool → String
  printDefaults : List String → String
  today : Date

inductive Err where
  | fsErr (path : String)
  | factoryErr (fname : String)
  | printErr (fname : String)
deriving DecidableEq

/-- How a run stops early: an error value returned up the walk (`err`),
a `log.Fatal` that exits the process on the spot (`fatal`), or the
artificial fuel bound of the embedding (`fuelOut`). -/
inductive RunStop where
  | err (e : Err)
  | fatal (msg : String)
  | fuelOut
deriving DecidableEq

/-- One file-creation event of the walk: the command path of the node
whose own page is being created, and the file path. -/
structure Ev where
  node : String
  file : String
deriving DecidableEq

/-- The file-system state: existing directories and files with content.
A freshly created file shadows earlier entries with the same path. -/
structure FS where
  dirs : List String
  files : List (String × String)
deriving DecidableEq

/-- `os.Create`: creates or truncates the named file.  Modelled from the
Go standard library and POSIX `open` with `O_CREATE`: it fails when the
parent directory does not exist, and it never creates directories. -/
def osCreate (fs : FS) (p : String) : Except RunStop FS :=
  if parentDirOf p ∈ fs.dirs then .ok { fs with files := (p, "") :: fs.files }
  else .error (.err (.fsErr p))

def setFirst : List (String × String) → String → String → List (String × String)
  | [], _, _ => []
  | (q, c) :: rest, p, v =>
    if q = p then (q, v) :: rest else (q, c) :: setFirst rest p v

/-- Write the rendered page into the already created file. -/
def fsWrite (fs : FS) (p v : String) : FS :=
  { fs with files := setFirst fs.files p v }

/-- `getFlags` (generate.go lines 143-149): the per-formatter extra shell
flag; only the `pretty` formatter gets one. -/
def getFlags (name : String) : String :=
  if goReplace name "terraform-docs " "" = "pretty" then " --no-color" else ""

/-- The fixed text `printExample` writes before the rendered output
(generate.go lines 152-157): the explanatory sentence and the shell
invocation block. -/
def exampleHeader (name : String) : String :=
  "### Example\n\nGiven the [`examples`](/examples/) module:\n\n```shell\n"
    ++ name ++ getFlags name ++ " ./examples/\n" ++ "```\n\n"
    ++ "generates the following output:\n\n"

/-- One re-emitted line of the rendered output (generate.go lines
186-191): blank lines stay blank, other lines get four spaces. -/
def indentLine (s : String) : String := if s = "" then "" else "    " ++ s

/-- The indented example block (generate.go lines 184-193): split the
rendered output on line breaks and re-emit each segment. -/
def exampleBody (out : String) : String :=
  joinStr ((goSplit out "\n").map (fun s => indentLine s ++ "\n"))

/-- `printExample` (generate.go lines 151-194): header and shell line,
then resolve a formatter by the prefix-stripped name through the external
registry, load the canonical example module, render it with `ShowColor`
false, and append the rendering indented by four spaces.  The module-load
failure calls `log.Fatal` in the source, modelled as the distinguished
`RunStop.fatal` outcome; the other two failures return an error. -/
def printExample (env : Env) (name : String) : Except RunStop String :=
  if env.factoryOk (goReplace name "terraform-docs " "") = false then
    .error (.err (.factoryErr (goReplace name "terraform-docs " "")))
  else if env.loadOk = false then .error (.fatal "module load error")
  else if env.printOk (goReplace name "terraform-docs " "") = false then
    .error (.err (.printErr (goReplace name "terraform-docs " "")))
  else
    .ok (exampleHeader name
      ++ exampleBody (env.render (goReplace name "terraform-docs " "") false)
      ++ "\n")

/-- `printOptions` (generate.go lines 123-141): the own-flags block, then
the inherited-flags block, each omitted when it has no available flags;
the pflag rendering itself is external. -/
def printOptions (env : Env) (c : Cmd) : String :=
  (if c.flags.isEmpty then ""
   else "### Options\n\n```\n" ++ env.printDefaults c.flags ++ "```\n\n")
    ++ (if c.iflags.isEmpty then ""
        else "### Options inherited from parent commands\n\n```\n"
          ++ env.printDefaults c.iflags ++ "```\n\n")

/-- The link target of a SEE ALSO bullet (generate.go lines 205 and 214):
hyphenate the child command path, append `".md"`, then remove every
occurrence of `"terraform-docs-"`. -/
def seeAlsoLink (cname : String) : String :=
  goReplace (goReplace cname " " "-" ++ ".md") "terraform-docs-" ""

/-- One SEE ALSO bullet
`ind ++ "* [cname](basedir formatdir/link)\t - short"`. -/
def bulletStr (ind cname short link : String) : String :=
  ind ++ "* [" ++ cname ++ "](" ++ basedir ++ formatdir ++ "/" ++ link
    ++ ")\t - " ++ short ++ "\n"

/-- `printSeeAlso` (generate.go lines 196-222): one bullet per
documentable child in declared order, and one nested bullet per
documentable grandchild. -/
def printSeeAlso (children : List Cmd) (parentPath : String) : String :=
  "### SEE ALSO\n\n"
    ++ joinStr (children.map (fun child =>
        if docFilter child then
          bulletStr "" (parentPath ++ " " ++ child.name) child.short
              (seeAlsoLink (parentPath ++ " " ++ child.name))
            ++ joinStr (child.commands.map (fun g =>
                if docFilter g then
                  bulletStr "  " (parentPath ++ " " ++ child.name ++ " " ++ g.name)
                    g.short
                    (seeAlsoLink (parentPath ++ " " ++ child.name ++ " " ++ g.name))
                else ""))
        else ""))
    ++ "\n"

/-- The default help subcommand cobra adds in `InitDefaultHelpCmd`,
modelled from the cobra framework: named `help`, runnable, no `"kind"`
mark, so never documentable. -/
def helpCmd : Cmd :=
  .mk "help" "Help about any command" "" "" "" true true false false [] [] [] []

/-- cobra `InitDefaultHelpCmd` (called at generate.go line 77): when the
node has subcommands and no help subcommand yet, append the default help
subcommand; modelled from the cobra framework. -/
def initDefaultHelpCmd (cmd : Cmd) : Cmd :=
  if cmd.commands.isEmpty then cmd
  else if cmd.commands.any (fun c => c.name = "help") then cmd
  else cmd.withCommands (cmd.commands ++ [helpCmd])

/-- cobra `InitDefaultHelpFlag` (called at generate.go line 78): add the
default `help` flag when the node does not have one yet; modelled from
the cobra framework. -/
def initDefaultHelpFlag (cmd : Cmd) : Cmd :=
  if cmd.flags.contains "help" then cmd
  else cmd.withFlags (cmd.flags ++ ["help"])

def initHelp (cmd : Cmd) : Cmd := initDefaultHelpFlag (initDefaultHelpCmd cmd)

/-- The trailing auto-generation line (generate.go line 118). -/
def tagline (env : Env) : String :=
  "###### Auto generated by spf13/cobra on " ++ formatDate env.today ++ "\n"

/-- The page sections before the terminal Example or SEE ALSO section
(generate.go lines 88-104): title, short description, Synopsis with the
short-description fallback, the usage block for runnable nodes, the
Examples block when example text is set, and the options blocks. -/
def mdHead (env : Env) (c : Cmd) (name : String) : String :=
  "## " ++ name ++ "\n\n" ++ c.short ++ "\n\n### Synopsis\n\n"
    ++ (if c.long = "" then c.short else c.long) ++ "\n\n"
    ++ (if c.runnable then "```\n" ++ c.useLine ++ "\n```\n\n" else "")
    ++ (if c.exampleText = "" then ""
        else "### Examples\n\n```\n" ++ c.exampleText ++ "\n```\n\n")
    ++ printOptions env c

/-- `generateMarkdown` (generate.go lines 76-121): initialize the default
help command and flag on the node, assemble the page head, then either
the worked example (childless nodes) or the SEE ALSO index, then the
auto-generation line unless disabled.  Returns the page text and the
node as mutated by the help initialization. -/
def generateMarkdown (env : Env) (cmd : Cmd) (name : String) :
    Except RunStop (String × Cmd) :=
  match (if (initHelp cmd).commands.isEmpty then printExample env name
         else .ok (printSeeAlso (initHelp cmd).commands name)) with
  | .error e => .error e
  | .ok tailSec =>
    .ok (mdHead env (initHelp cmd) name ++ tailSec
        ++ (if (initHelp cmd).disableAutoGen then "" else tagline env),
      initHelp cmd)

/-- The child loop of `generate` (generate.go lines 47-58): visit the
children in declared order, skip the non-documentable ones, and recurse
into each documentable child with the fixed formats subdirectory and its
derived basename; the first error aborts the loop.  `rec` is the walker
applied to one node, and the returned command list carries the help
mutation of the visited children. -/
def genList (rec : FS → Cmd → String → String → String → Except RunStop (FS × Cmd) × List Ev) :
    FS → List Cmd → String → Except RunStop (FS × List Cmd) × List Ev
  | fs, [], _ => (.ok (fs, []), [])
  | fs, c :: cs, path =>
    if docFilter c then
      match rec fs c (path ++ " " ++ c.name) formatdir
          (derivedName (path ++ " " ++ c.name)) with
      | (.error e, tr) => (.error e, tr)
      | (.ok (fs1, c1), tr) =>
        match genList rec fs1 cs path with
        | (.error e, tr2) => (.error e, tr ++ tr2)
        | (.ok (fs2, cs2), tr2) => (.ok (fs2, c1 :: cs2), tr ++ tr2)
    else
      match genList rec fs cs path with
      | (.error e, tr2) => (.error e, tr2)
      | (.ok (fs2, cs2), tr2) => (.ok (fs2, c :: cs2), tr2)

/-- The recursive walker `generate` (generate.go lines 46-74): process
the documentable children first, then create this node page file at
`filepath.Join("."+basedir, subdir, basename+".md")` and render the
markdown into it.  `path` is this node CommandPath.  The fuel argument
only bounds the recursion depth, making the function structural; a run
that exhausts it stops with the artificial `fuelOut`. -/
def generate : Nat → Env → FS → Cmd → String → String → String →
    Except RunStop (FS × Cmd) × List Ev
  | 0, _, _, _, _, _, _ => (.error .fuelOut, [])
  | fuel + 1, env, fs, cmd, path, subdir, basename =>
    match genList (generate fuel env) fs cmd.commands path with
    | (.error e, tr) => (.error e, tr)
    | (.ok (fs1, cs1), tr) =>
      match osCreate fs1 (pageFile subdir basename) with
      | .error e => (.error e, tr)
      | .ok fs2 =>
        match generateMarkdown env (cmd.withCommands cs1) path with
        | .error e => (.error e, tr ++ [⟨path, pageFile subdir basename⟩])
        | .ok (page, cmd2) =>
          (.ok (fsWrite fs2 (pageFile subdir basename) page, cmd2),
            tr ++ [⟨path, pageFile subdir basename⟩])

/-- `main` (generate.go lines 39-44): run the walker at the root with the
fixed top-level basename and empty subdirectory; any error is logged via
`log.Fatal` and the process exits non-zero, as does the `log.Fatal`
inside the example embedder. -/
def mainExit (fuel : Nat) (env : Env) (fs : FS) (root : Cmd)
    (rootPath : String) : Nat :=
  match (generate fuel env fs root rootPath "" "FORMATS_GUIDE").1 with
  | .ok _ => 0
  | .error _ => 1

def isOkb {ε α : Type} : Except ε α → Bool
  | .ok _ => true
  | .error _ => false

def errOf {ε α : Type} : Except ε α → Option ε
  | .ok _ => none
  | .error e => some e

def fsOf : Except RunStop (FS × Cmd) → FS
  | .ok (f, _) => f
  | .error _ => ⟨[], []⟩

def cmdFlagsOf : Except RunStop (FS × Cmd) → List String
  | .ok (_, c) => c.flags
  | .error _ => []

def cmdOf : Except RunStop (FS × Cmd) → Cmd → Cmd
  | .ok (_, c), _ => c
  | .error _, d => d

/-- Specification-side description of the emitted creation events (spec
sections 4.2 and 8): depth-first over the documentable child chains, one
event per visited node, children before the node itself, closing with the
node own page. -/
def evSpec : Nat → Cmd → String → String → String → List Ev
  | 0, _, _, _, _ => []
  | n + 1, cmd, path, subdir, basename =>
    ((cmd.commands.filter docFilter).map (fun c =>
        evSpec n c (path ++ " " ++ c.name) formatdir
          (derivedName (path ++ " " ++ c.name)))).flatten
      ++ [⟨path, pageFile subdir basename⟩]

/-- Specification-side list of all documentable nodes of a tree (spec
section 4.1: available, not a help topic, kind equal to formatter), at
every depth and regardless of the classification of the ancestors. -/
def docNodesSpec : Nat → Cmd → String → List String
  | 0, _, _ => []
  | n + 1, cmd, path =>
    (if docFilter cmd then [path] else [])
      ++ (cmd.commands.map (fun c =>
          docNodesSpec n c (path ++ " " ++ c.name))).flatten

/-- The tree as a completed run leaves it: every visited node (the root
and, recursively, the documentable children) undergoes the default help
initialization; non-documentable children are untouched. -/
def initTree : Nat → Cmd → Cmd
  | 0, c => c
  | n + 1, cmd =>
    initHelp (cmd.withCommands (cmd.commands.map (fun c =>
      if docFilter c then initTree n c else c)))

/-- Modelled from the spec words of claim C5, for comparison with the
source `derivedName`: hyphenate, then strip one leading
`"terraform-docs-"` prefix when present. -/
def specPrefixStrip (cname : String) : String :=
  let h := goReplace cname " " "-"
  if isPref tdL h.data then ⟨h.data.drop 15⟩ else h

theorem osCreate_ok {fs fs' : FS} {p : String} (h : osCreate fs p = .ok fs') :
    parentDirOf p ∈ fs.dirs ∧ fs' = { fs with files := (p, "") :: fs.files } := by
  unfold osCreate at h
  split at h
  · refine ⟨by assumption, ?_⟩
    injection h with h
    exact h.symm
  · exact absurd h (by simp)

theorem generateMarkdown_ok_cmd {env : Env} {cmd : Cmd} {name p : String}
    {c' : Cmd} (h : generateMarkdown env cmd name = .ok (p, c')) :
    c' = initHelp cmd := by
  unfold generateMarkdown at h
  rcases hts : (if (initHelp cmd).commands.isEmpty then printExample env name
      else .ok (printSeeAlso (initHelp cmd).commands name)) with e | t
  · rw [hts] at h
    exact absurd h (by simp)
  · rw [hts] at h
    simp only [Except.ok.injEq, Prod.mk.injEq] at h
    exact h.2.symm

theorem printExample_no_fatal {env : Env} {name m : String}
    (hl : env.loadOk = true) :
    printExample env name ≠ .error (.fatal m) := by
  unfold printExample
  intro hcon
  split at hcon
  · simp at hcon
  · split at hcon
    · rename_i hbad
      rw [hl] at hbad
      simp at hbad
    · split at hcon
      · simp at hcon
      · simp at hcon

theorem generateMarkdown_no_fatal {env : Env} {cmd : Cmd} {name m : String}
    (hl : env.loadOk = true) :
    generateMarkdown env cmd name ≠ .error (.fatal m) := by
  unfold generateMarkdown
  intro hcon
  rcases hts : (if (initHelp cmd).commands.isEmpty then printExample env name
      else .ok (printSeeAlso (initHelp cmd).commands name)) with e | t
  · rw [hts] at hcon
    simp only [Except.error.injEq] at hcon
    rcases hc : (initHelp cmd).commands.isEmpty with _ | _
    · rw [hc] at hts
      simp at hts
    · rw [hc] at hts
      simp only [if_true] at hts
      exact printExample_no_fatal hl (by rw [hts, hcon])
  · rw [hts] at hcon
    simp at hcon

theorem genList_ok_aux
    (rec : FS → Cmd → String → String → String → Except RunStop (FS × Cmd) × List Ev)
    (fuel : Nat)
    (hrec : ∀ (fs : FS) (c : Cmd) (p s b : String) (fs' : FS) (c' : Cmd),
      (rec fs c p s b).1 = .ok (fs', c') →
        (rec fs c p s b).2 = evSpec fuel c p s b
        ∧ fs'.dirs = fs.dirs
        ∧ c' = initTree fuel c
        ∧ ∀ ev ∈ (rec fs c p s b).2, parentDirOf ev.file ∈ fs.dirs) :
    ∀ (cs : List Cmd) (fs : FS) (path : String) (fs' : FS) (cs' : List Cmd),
      (genList rec fs cs path).1 = .ok (fs', cs') →
        (genList rec fs cs path).2 = ((cs.filter docFilter).map (fun c =>
            evSpec fuel c (path ++ " " ++ c.name) formatdir
              (derivedName (path ++ " " ++ c.name)))).flatten
        ∧ fs'.dirs = fs.dirs
        ∧ cs' = cs.map (fun c => if docFilter c then initTree fuel c else c)
        ∧ ∀ ev ∈ (genList rec fs cs path).2, parentDirOf ev.file ∈ fs.dirs := by
  intro cs
  induction cs with
  | nil =>
    intro fs path fs' cs' h
    simp only [genList, Except.ok.injEq, Prod.mk.injEq] at h
    refine ⟨by simp [genList], by rw [← h.1], by rw [← h.2]; simp, by simp [genList]⟩
  | cons c rest ih =>
    intro fs path fs' cs' h
    by_cases hdf : docFilter c = true
    · rcases hr : rec fs c (path ++ " " ++ c.name) formatdir
          (derivedName (path ++ " " ++ c.name)) with ⟨rr, rtr⟩
      cases rr with
      | error e =>
        have hstep : genList rec fs (c :: rest) path = (.error e, rtr) := by
          simp [genList, hdf, hr]
        rw [hstep] at h
        simp at h
      | ok pr =>
        obtain ⟨fs1, c1⟩ := pr
        rcases hrest : genList rec fs1 rest path with ⟨lr, ltr⟩
        cases lr with
        | error e =>
          have hstep : genList rec fs (c :: rest) path = (.error e, rtr ++ ltr) := by
            simp [genList, hdf, hr, hrest]
          rw [hstep] at h
          simp at h
        | ok pr2 =>
          obtain ⟨fs2, cs2⟩ := pr2
          have hstep : genList rec fs (c :: rest) path
              = (.ok (fs2, c1 :: cs2), rtr ++ ltr) := by
            simp [genList, hdf, hr, hrest]
          rw [hstep] at h
          simp only [Except.ok.injEq, Prod.mk.injEq] at h
          obtain ⟨hfs', hcs'⟩ := h
          have hchild := hrec fs c (path ++ " " ++ c.name) formatdir
            (derivedName (path ++ " " ++ c.name)) fs1 c1 (by rw [hr])
          rw [hr] at hchild
          obtain ⟨htr1, hd1, hc1, hm1⟩ := hchild
          have hrest' := ih fs1 path fs2 cs2 (by rw [hrest])
          rw [hrest] at hrest'
          obtain ⟨htr2, hd2, hc2, hm2⟩ := hrest'
          rw [hstep]
          refine ⟨?_, ?_, ?_, ?_⟩
          · simp only [List.filter_cons, hdf, if_true, List.map_cons,
              List.flatten_cons]
            have h1 : rtr = evSpec fuel c (path ++ " " ++ c.name) formatdir
                (derivedName (path ++ " " ++ c.name)) := htr1
            have h2 : ltr = ((rest.filter docFilter).map (fun x =>
                evSpec fuel x (path ++ " " ++ x.name) formatdir
                  (derivedName (path ++ " " ++ x.name)))).flatten := htr2
            rw [h1, h2]
          · rw [← hfs', hd2, hd1]
          · rw [← hcs', List.map_cons, hdf]
            simp only [if_true]
            rw [hc1, hc2]
          · intro ev hev
            rcases List.mem_append.mp hev with hin | hin
            · exact hm1 ev hin
            · have := hm2 ev hin
              rwa [hd1] at this
    · rcases hrest : genList rec fs rest path with ⟨lr, ltr⟩
      cases lr with
      | error e =>
        have hstep : genList rec fs (c :: rest) path = (.error e, ltr) := by
          simp [genList, hdf, hrest]
        rw [hstep] at h
        simp at h
      | ok pr2 =>
        obtain ⟨fs2, cs2⟩ := pr2
        have hstep : genList rec fs (c :: rest) path = (.ok (fs2, c :: cs2), ltr) := by
          simp [genList, hdf, hrest]
        rw [hstep] at h
        simp only [Except.ok.injEq, Prod.mk.injEq] at h
        obtain ⟨hfs', hcs'⟩ := h
        have hrest' := ih fs path fs2 cs2 (by rw [hrest])
        rw [hrest] at hrest'
        obtain ⟨htr2, hd2, hc2, hm2⟩ := hrest'
        rw [hstep]
        have hdf' : docFilter c = false := by
          cases hx : docFilter c
          · rfl
          · exact absurd hx hdf
        refine ⟨?_, ?_, ?_, ?_⟩
        · simp only [List.filter_cons, hdf', Bool.false_eq_true, if_false]
          have h2 : ltr = ((rest.filter docFilter).map (fun x =>
              evSpec fuel x (path ++ " " ++ x.name) formatdir
                (derivedName (path ++ " " ++ x.name)))).flatten := htr2
          exact h2
        · rw [← hfs', hd2]
        · rw [← hcs', List.map_cons, hdf']
          simp only [Bool.false_eq_true, if_false]
          rw [hc2]
        · exact hm2

/-- A successful run at a node emits exactly the specified creation
events, leaves the directory set unchanged, returns the help-initialized
tree, and creates files only inside pre-existing directories. -/
theorem gen_ok (env : Env) :
    ∀ (fuel : Nat) (fs : FS) (cmd : Cmd) (path subdir basename : String)
      (fs' : FS) (cmd' : Cmd),
      (generate fuel env fs cmd path subdir basename).1 = .ok (fs', cmd') →
        (generate fuel env fs cmd path subdir basename).2
            = evSpec fuel cmd path subdir basename
        ∧ fs'.dirs = fs.dirs
        ∧ cmd' = initTree fuel cmd
        ∧ ∀ ev ∈ (generate fuel env fs cmd path subdir basename).2,
            parentDirOf ev.file ∈ fs.dirs := by
  intro fuel
  induction fuel with
  | zero =>
    intro fs cmd path subdir basename fs' cmd' h
    simp [generate] at h
  | succ n ih =>
    intro fs cmd path subdir basename fs' cmd' h
    have Q := genList_ok_aux (generate n env) n ih
    rcases hgl : genList (generate n env) fs cmd.commands path with ⟨glr, gltr⟩
    cases glr with
    | error e =>
      have hstep : generate (n + 1) env fs cmd path subdir basename
          = (.error e, gltr) := by
        simp [generate, hgl]
      rw [hstep] at h
      simp at h
    | ok pr =>
      obtain ⟨fs1, cs1⟩ := pr
      rcases hoc : osCreate fs1 (pageFile subdir basename) with e | fs2
      · have hstep : generate (n + 1) env fs cmd path subdir basename
            = (.error e, gltr) := by
          simp [generate, hgl, hoc]
        rw [hstep] at h
        simp at h
      · rcases hmd : generateMarkdown env (cmd.withCommands cs1) path with e | pr2
        · have hstep : generate (n + 1) env fs cmd path subdir basename
              = (.error e, gltr ++ [⟨path, pageFile subdir basename⟩]) := by
            simp [generate, hgl, hoc, hmd]
          rw [hstep] at h
          simp at h
        · obtain ⟨page, cmd2⟩ := pr2
          have hstep : generate (n + 1) env fs cmd path subdir basename
              = (.ok (fsWrite fs2 (pageFile subdir basename) page, cmd2),
                 gltr ++ [⟨path, pageFile subdir basename⟩]) := by
            simp [generate, hgl, hoc, hmd]
          rw [hstep] at h
          simp only [Except.ok.injEq, Prod.mk.injEq] at h
          obtain ⟨hfs', hcmd'⟩ := h
          have hq := Q cmd.commands fs path fs1 cs1 (by rw [hgl])
          rw [hgl] at hq
          obtain ⟨htr, hdirs, hcs1, hmem⟩ := hq
          have htr' : gltr = ((cmd.commands.filter docFilter).map (fun c =>
              evSpec n c (path ++ " " ++ c.name) formatdir
                (derivedName (path ++ " " ++ c.name)))).flatten := htr
          have hmem' : ∀ ev ∈ gltr, parentDirOf ev.file ∈ fs.dirs := hmem
          obtain ⟨hparent, hfs2⟩ := osCreate_ok hoc
          rw [hstep]
          refine ⟨?_, ?_, ?_, ?_⟩
          · rw [htr']
            simp [evSpec]
          · rw [← hfs']
            have : (fsWrite fs2 (pageFile subdir basename) page).dirs = fs2.dirs := rfl
            rw [this, hfs2]
            exact hdirs
          · rw [← hcmd', generateMarkdown_ok_cmd hmd, hcs1]
            simp [initTree]
          · intro ev hev
            rcases List.mem_append.mp hev with hin | hin
            · exact hmem' ev hin
            · simp only [List.mem_singleton] at hin
              subst hin
              rw [← hdirs]
              exact hparent

theorem genList_prefix_aux
    (rec : FS → Cmd → String → String → String → Except RunStop (FS × Cmd) × List Ev)
    (hrec : ∀ (fs : FS) (c : Cmd) (p s b : String),
      ∀ ev ∈ (rec fs c p s b).2,
        ev.node = p ∨ isPref (p ++ " ").data ev.node.data = true) :
    ∀ (cs : List Cmd) (fs : FS) (path : String),
      ∀ ev ∈ (genList rec fs cs path).2,
        isPref (path ++ " ").data ev.node.data = true := by
  intro cs
  induction cs with
  | nil =>
    intro fs path ev hev
    simp [genList] at hev
  | cons c rest ih =>
    intro fs path ev hev
    have hchild : ∀ ev ∈ (rec fs c (path ++ " " ++ c.name) formatdir
        (derivedName (path ++ " " ++ c.name))).2,
        isPref (path ++ " ").data ev.node.data = true := by
      intro ev hin
      rcases hrec fs c (path ++ " " ++ c.name) formatdir
          (derivedName (path ++ " " ++ c.name)) ev hin with heq | hpre
      · rw [heq, show (path ++ " " ++ c.name).data
            = (path ++ " ").data ++ c.name.data by simp [sdata_app]]
        exact isPref_append_self _ _
      · refine isPref_trans ?_ hpre
        rw [show (path ++ " " ++ c.name ++ " ").data
            = (path ++ " ").data ++ (c.name.data ++ " ".data) by
          simp [sdata_app]]
        exact isPref_append_self _ _
    by_cases hdf : docFilter c = true
    · rcases hr : rec fs c (path ++ " " ++ c.name) formatdir
          (derivedName (path ++ " " ++ c.name)) with ⟨rr, rtr⟩
      have hchild' : ∀ ev ∈ rtr, isPref (path ++ " ").data ev.node.data = true := by
        intro ev hin
        exact hchild ev (by rw [hr]; exact hin)
      cases rr with
      | error e =>
        have hstep : genList rec fs (c :: rest) path = (.error e, rtr) := by
          simp [genList, hdf, hr]
        rw [hstep] at hev
        exact hchild' ev hev
      | ok pr =>
        obtain ⟨fs1, c1⟩ := pr
        rcases hrest : genList rec fs1 rest path with ⟨lr, ltr⟩
        have hrest' : ∀ ev ∈ ltr, isPref (path ++ " ").data ev.node.data = true := by
          intro ev hin
          exact ih fs1 path ev (by rw [hrest]; exact hin)
        cases lr with
        | error e =>
          have hstep : genList rec fs (c :: rest) path = (.error e, rtr ++ ltr) := by
            simp [genList, hdf, hr, hrest]
          rw [hstep] at hev
          rcases List.mem_append.mp hev with hin | hin
          · exact hchild' ev hin
          · exact hrest' ev hin
        | ok pr2 =>
          obtain ⟨fs2, cs2⟩ := pr2
          have hstep : genList rec fs (c :: rest) path
              = (.ok (fs2, c1 :: cs2), rtr ++ ltr) := by
            simp [genList, hdf, hr, hrest]
          rw [hstep] at hev
          rcases List.mem_append.mp hev with hin | hin
          · exact hchild' ev hin
          · exact hrest' ev hin
    · rcases hrest : genList rec fs rest path with ⟨lr, ltr⟩
      have hrest' : ∀ ev ∈ ltr, isPref (path ++ " ").data ev.node.data = true := by
        intro ev hin
        exact ih fs path ev (by rw [hrest]; exact hin)
      cases lr with
      | error e =>
        have hstep : genList rec fs (c :: rest) path = (.error e, ltr) := by
          simp [genList, hdf, hrest]
        rw [hstep] at hev
        exact hrest' ev hev
      | ok pr2 =>
        obtain ⟨fs2, cs2⟩ := pr2
        have hstep : genList rec fs (c :: rest) path = (.ok (fs2, c :: cs2), ltr) := by
          simp [genList, hdf, hrest]
        rw [hstep] at hev
        exact hrest' ev hev

/-- Every creation event of a run at a node belongs to the node itself or
to a strict descendant (its command path extends the node path by at
least one space-separated token), for any outcome of the run. -/
theorem gen_node_paths (env : Env) :
    ∀ (fuel : Nat) (fs : FS) (cmd : Cmd) (path subdir basename : String),
      ∀ ev ∈ (generate fuel env fs cmd path subdir basename).2,
        ev.node = path ∨ isPref (path ++ " ").data ev.node.data = true := by
  intro fuel
  induction fuel with
  | zero =>
    intro fs cmd path subdir basename ev hev
    simp [generate] at hev
  | succ n ih =>
    intro fs cmd path subdir basename ev hev
    have Q := genList_prefix_aux (generate n env)
      (fun fs c p s b => ih fs c p s b)
    rcases hgl : genList (generate n env) fs cmd.commands path with ⟨glr, gltr⟩
    have hQ : ∀ ev ∈ gltr, isPref (path ++ " ").data ev.node.data = true := by
      intro ev hin
      exact Q cmd.commands fs path ev (by rw [hgl]; exact hin)
    cases glr with
    | error e =>
      have hstep : generate (n + 1) env fs cmd path subdir basename
          = (.error e, gltr) := by
        simp [generate, hgl]
      rw [hstep] at hev
      exact Or.inr (hQ ev hev)
    | ok pr =>
      obtain ⟨fs1, cs1⟩ := pr
      rcases hoc : osCreate fs1 (pageFile subdir basename) with e | fs2
      · have hstep : generate (n + 1) env fs cmd path subdir basename
            = (.error e, gltr) := by
          simp [generate, hgl, hoc]
        rw [hstep] at hev
        exact Or.inr (hQ ev hev)
      · rcases hmd : generateMarkdown env (cmd.withCommands cs1) path with e | pr2
        · have hstep : generate (n + 1) env fs cmd path subdir basename
              = (.error e, gltr ++ [⟨path, pageFile subdir basename⟩]) := by
            simp [generate, hgl, hoc, hmd]
          rw [hstep] at hev
          rcases List.mem_append.mp hev with hin | hin
          · exact Or.inr (hQ ev hin)
          · simp only [List.mem_singleton] at hin
            subst hin
            exact Or.inl rfl
        · obtain ⟨page, cmd2⟩ := pr2
          have hstep : generate (n + 1) env fs cmd path subdir basename
              = (.ok (fsWrite fs2 (pageFile subdir basename) page, cmd2),
                 gltr ++ [⟨path, pageFile subdir basename⟩]) := by
            simp [generate, hgl, hoc, hmd]
          rw [hstep] at hev
          rcases List.mem_append.mp hev with hin | hin
          · exact Or.inr (hQ ev hin)
          · simp only [List.mem_singleton] at hin
            subst hin
            exact Or.inl rfl

/-- A strict descendant event never carries the node own path. -/
theorem node_ne_of_pref {path : String} {ev : Ev}
    (h : isPref (path ++ " ").data ev.node.data = true) : ev.node ≠ path := by
  intro heq
  have hlen := isPref_length h
  rw [heq, sdata_app] at hlen
  simp at hlen

/-- When the child loop fails, the walker returns that error with only
the child-loop events: the node own file creation was never reached. -/
theorem generate_children_err (env : Env) (fuel : Nat) (fs : FS) (cmd : Cmd)
    (path subdir basename : String) (e : RunStop)
    (h : (genList (generate fuel env) fs cmd.commands path).1 = .error e) :
    generate (fuel + 1) env fs cmd path subdir basename
      = (.error e, (genList (generate fuel env) fs cmd.commands path).2) := by
  rcases hgl : genList (generate fuel env) fs cmd.commands path with ⟨glr, gltr⟩
  rw [hgl] at h
  simp only at h
  subst h
  simp [generate, hgl]

/-- A documentable child whose recursive walk fails makes the loop stop
at once with the child error and the child trace: later siblings are
never visited. -/
theorem genList_err_stops
    (rec : FS → Cmd → String → String → String → Except RunStop (FS × Cmd) × List Ev)
    (fs : FS) (c : Cmd) (cs : List Cmd) (path : String) (e : RunStop) (tr : List Ev)
    (hdf : docFilter c = true)
    (h : rec fs c (path ++ " " ++ c.name) formatdir
        (derivedName (path ++ " " ++ c.name)) = (.error e, tr)) :
    genList rec fs (c :: cs) path = (.error e, tr) := by
  simp [genList, hdf, h]

theorem osCreate_err {fs : FS} {p : String} {e : RunStop}
    (h : osCreate fs p = .error e) : e = .err (.fsErr p) := by
  unfold osCreate at h
  split at h
  · simp at h
  · injection h with h
    exact h.symm

theorem genList_no_fatal_aux
    (rec : FS → Cmd → String → String → String → Except RunStop (FS × Cmd) × List Ev)
    (hrec : ∀ (fs : FS) (c : Cmd) (p s b m : String),
      (rec fs c p s b).1 ≠ .error (.fatal m)) :
    ∀ (cs : List Cmd) (fs : FS) (path m : String),
      (genList rec fs cs path).1 ≠ .error (.fatal m) := by
  intro cs
  induction cs with
  | nil =>
    intro fs path m
    simp [genList]
  | cons c rest ih =>
    intro fs path m hcon
    by_cases hdf : docFilter c = true
    · rcases hr : rec fs c (path ++ " " ++ c.name) formatdir
          (derivedName (path ++ " " ++ c.name)) with ⟨rr, rtr⟩
      cases rr with
      | error e =>
        have hstep : genList rec fs (c :: rest) path = (.error e, rtr) := by
          simp [genList, hdf, hr]
        rw [hstep] at hcon
        simp only at hcon
        injection hcon with hcon
        subst hcon
        exact hrec fs c (path ++ " " ++ c.name) formatdir
          (derivedName (path ++ " " ++ c.name)) m (by rw [hr])
      | ok pr =>
        obtain ⟨fs1, c1⟩ := pr
        rcases hrest : genList rec fs1 rest path with ⟨lr, ltr⟩
        cases lr with
        | error e =>
          have hstep : genList rec fs (c :: rest) path = (.error e, rtr ++ ltr) := by
            simp [genList, hdf, hr, hrest]
          rw [hstep] at hcon
          simp only at hcon
          injection hcon with hcon
          subst hcon
          exact ih fs1 path m (by rw [hrest])
        | ok pr2 =>
          obtain ⟨fs2, cs2⟩ := pr2
          have hstep : genList rec fs (c :: rest) path
              = (.ok (fs2, c1 :: cs2), rtr ++ ltr) := by
            simp [genList, hdf, hr, hrest]
          rw [hstep] at hcon
          simp at hcon
    · rcases hrest : genList rec fs rest path with ⟨lr, ltr⟩
      cases lr with
      | error e =>
        have hstep : genList rec fs (c :: rest) path = (.error e, ltr) := by
          simp [genList, hdf, hrest]
        rw [hstep] at hcon
        simp only at hcon
        injection hcon with hcon
        subst hcon
        exact ih fs path m (by rw [hrest])
      | ok pr2 =>
        obtain ⟨fs2, cs2⟩ := pr2
        have hstep : genList rec fs (c :: rest) path = (.ok (fs2, c :: cs2), ltr) := by
          simp [genList, hdf, hrest]
        rw [hstep] at hcon
        simp at hcon

/-- With a loadable example module, no part of the walk ever stops with
the log.Fatal outcome: the fatal exit can only come from the module
loader. -/
theorem gen_no_fatal (env : Env) (hl : env.loadOk = true) :
    ∀ (fuel : Nat) (fs : FS) (cmd : Cmd) (path subdir basename m : String),
      (generate fuel env fs cmd path subdir basename).1 ≠ .error (.fatal m) := by
  intro fuel
  induction fuel with
  | zero =>
    intro fs cmd path subdir basename m
    simp [generate]
  | succ n ih =>
    intro fs cmd path subdir basename m hcon
    have Q := genList_no_fatal_aux (generate n env)
      (fun fs c p s b m => ih fs c p s b m)
    rcases hgl : genList (generate n env) fs cmd.commands path with ⟨glr, gltr⟩
    cases glr with
    | error e =>
      have hstep : generate (n + 1) env fs cmd path subdir basename
          = (.error e, gltr) := by
        simp [generate, hgl]
      rw [hstep] at hcon
      simp only at hcon
      injection hcon with hcon
      subst hcon
      exact Q cmd.commands fs path m (by rw [hgl])
    | ok pr =>
      obtain ⟨fs1, cs1⟩ := pr
      rcases hoc : osCreate fs1 (pageFile subdir basename) with e | fs2
      · have hstep : generate (n + 1) env fs cmd path subdir basename
            = (.error e, gltr) := by
          simp [generate, hgl, hoc]
        rw [hstep] at hcon
        simp only at hcon
        injection hcon with hcon
        subst hcon
        have := osCreate_err hoc
        simp at this
      · rcases hmd : generateMarkdown env (cmd.withCommands cs1) path with e | pr2
        · have hstep : generate (n + 1) env fs cmd path subdir basename
              = (.error e, gltr ++ [⟨path, pageFile subdir basename⟩]) := by
            simp [generate, hgl, hoc, hmd]
          rw [hstep] at hcon
          simp only at hcon
          injection hcon with hcon
          subst hcon
          exact generateMarkdown_no_fatal hl hmd
        · obtain ⟨page, cmd2⟩ := pr2
          have hstep : generate (n + 1) env fs cmd path subdir basename
              = (.ok (fsWrite fs2 (pageFile subdir basename) page, cmd2),
                 gltr ++ [⟨path, pageFile subdir basename⟩]) := by
            simp [generate, hgl, hoc, hmd]
          rw [hstep] at hcon
          simp at hcon

theorem interL_nil_sep : ∀ (ls : List (List Char)), interL [] ls = ls.flatten := by
  intro ls
  cases ls with
  | nil => rfl
  | cons l ls => simp [interL_cons]

theorem sapp_empty (s : String) : s ++ "" = s := by
  apply String.ext
  rw [sdata_app]
  simp

theorem sapp_assoc (a b c : String) : a ++ b ++ c = a ++ (b ++ c) := by
  apply String.ext
  simp [sdata_app]

/-- The SEE ALSO link target of a child equals the file basename the
walker derives for that same child: appending `".md"` before or after
removing the `"terraform-docs-"` occurrences makes no difference. -/
theorem seeAlsoLink_eq (cname : String) :
    seeAlsoLink cname = derivedName cname ++ ".md" := by
  apply String.ext
  show replaceAllL tdL [] (goReplace cname " " "-" ++ ".md").data
      = (derivedName cname ++ ".md").data
  rw [show (goReplace cname " " "-" ++ ".md").data
      = (goReplace cname " " "-").data ++ mdL from rfl,
    replaceAllL_append_mdL]
  rfl

theorem joinStr_filter_map {α : Type} (p : α → Bool) (f : α → String) :
    ∀ (l : List α),
      joinStr (l.map (fun x => if p x then f x else ""))
        = joinStr ((l.filter p).map f) := by
  intro l
  induction l with
  | nil => rfl
  | cons x l ih =>
    by_cases hp : p x = true
    · simp only [List.map_cons, joinStr, hp, if_true, List.filter_cons, ih]
    · have hp' : p x = false := by
        cases hx : p x
        · rfl
        · exact absurd hx hp
      simp only [List.map_cons, joinStr, hp', Bool.false_eq_true, if_false,
        List.filter_cons, ih, empty_sapp]

theorem splitNl_cons (c : Char) (rest : List Char) :
    splitOnL ['\n'] (c :: rest) =
      if c = '\n' then [] :: splitOnL ['\n'] rest
      else match splitOnL ['\n'] rest with
        | [] => [[c]]
        | l :: ls => (c :: l) :: ls := by
  rw [splitOnL_cons]
  by_cases hc : c = '\n'
  · rw [if_pos ⟨by simp, by simp [isPref, hc]⟩, if_pos hc]
    simp
  · rw [if_neg, if_neg hc]
    rintro ⟨-, hp⟩
    simp [isPref] at hp
    exact hc hp.symm

theorem splitNl_no_nl : ∀ (s : List Char), ∀ l ∈ splitOnL ['\n'] s, '\n' ∉ l := by
  intro s
  induction s with
  | nil =>
    intro l hl
    rw [splitOnL_nil] at hl
    simp at hl
    simp [hl]
  | cons c rest ih =>
    intro l hl
    rw [splitNl_cons] at hl
    by_cases hc : c = '\n'
    · rw [if_pos hc] at hl
      rcases List.mem_cons.mp hl with rfl | hin
      · simp
      · exact ih l hin
    · rw [if_neg hc] at hl
      rcases h : splitOnL ['\n'] rest with _ | ⟨l0, ls⟩
      · exact absurd h (splitOnL_ne_nil _ _)
      · rw [h] at hl
        rcases List.mem_cons.mp hl with rfl | hin
        · intro hmem
          rcases List.mem_cons.mp hmem with heq | hin0
          · exact hc heq.symm
          · exact ih l0 (by rw [h]; exact List.mem_cons_self _ _) hin0
        · exact ih l (by rw [h]; exact List.mem_cons_of_mem _ hin)

theorem splitNl_append (a b : List Char) (ha : '\n' ∉ a) :
    splitOnL ['\n'] (a ++ '\n' :: b) = a :: splitOnL ['\n'] b := by
  induction a with
  | nil =>
    rw [List.nil_append, splitNl_cons, if_pos rfl]
  | cons c a' ih =>
    have hc : c ≠ '\n' := fun h => ha (by rw [h]; exact List.mem_cons_self _ _)
    have ha' : '\n' ∉ a' := fun h => ha (List.mem_cons_of_mem _ h)
    rw [List.cons_append, splitNl_cons, if_neg hc, ih ha']

theorem splitNl_flatten :
    ∀ (segs : List (List Char)), (∀ l ∈ segs, '\n' ∉ l) →
      splitOnL ['\n'] ((segs.map (fun l =>
          (if l = [] then [] else "    ".data ++ l) ++ ['\n'])).flatten)
        = segs.map (fun l => if l = [] then [] else "    ".data ++ l) ++ [[]] := by
  intro segs
  induction segs with
  | nil =>
    intro _
    simp [splitOnL_nil]
  | cons l segs' ih =>
    intro h
    have hind : '\n' ∉ (if l = [] then [] else "    ".data ++ l) := by
      by_cases hl : l = []
      · simp [hl]
      · rw [if_neg hl]
        intro hmem
        rcases List.mem_append.mp hmem with hin | hin
        · simp at hin
        · exact h l (List.mem_cons_self _ _) hin
    rw [List.map_cons, List.flatten_cons, List.append_assoc, List.singleton_append,
      splitNl_append _ _ hind, ih (fun x hx => h x (List.mem_cons_of_mem _ hx))]
    rfl

theorem mk_eq_empty_iff (l : List Char) : (⟨l⟩ : String) = "" ↔ l = [] := by
  constructor
  · intro h
    have := congrArg String.data h
    simpa using this
  · intro h
    rw [h]

theorem indentLine_mk (l : List Char) :
    indentLine ⟨l⟩ = ⟨if l = [] then [] else "    ".data ++ l⟩ := by
  unfold indentLine
  by_cases hl : l = []
  · rw [if_pos ((mk_eq_empty_iff l).mpr hl), if_pos hl]
  · rw [if_neg (fun h => hl ((mk_eq_empty_iff l).mp h)), if_neg hl]
    apply String.ext
    rw [sdata_app]

theorem indentLine_chunk_data (l : List Char) :
    (indentLine ⟨l⟩ ++ "\n").data
      = (if l = [] then [] else "    ".data ++ l) ++ ['\n'] := by
  rw [indentLine_mk, sdata_app]

/-- The lines of the re-emitted example block are exactly the lines of
the rendered output, the non-empty ones prefixed by four spaces, plus the
final empty piece left by the trailing line break. -/
theorem exampleBody_lines (out : String) :
    goSplit (exampleBody out) "\n"
      = (goSplit out "\n").map indentLine ++ [""] := by
  unfold exampleBody goSplit
  rw [show ("\n" : String).data = ['\n'] from rfl, joinStr_data,
    List.map_map, List.map_map]
  have hcomp : (String.data ∘ (fun s => indentLine s ++ "\n")) ∘ String.mk
      = fun l => (if l = [] then [] else "    ".data ++ l) ++ ['\n'] := by
    funext l
    exact indentLine_chunk_data l
  rw [hcomp, splitNl_flatten (splitOnL ['\n'] out.data) (splitNl_no_nl out.data),
    List.map_append, List.map_map, List.map_map]
  congr 1
  apply List.map_congr_left
  intro x hx
  exact (indentLine_mk x).symm

theorem withDisable_commands (c : Cmd) (b : Bool) :
    (c.withDisable b).commands = c.commands := by
  cases c
  rfl

theorem withDisable_disable (c : Cmd) (b : Bool) :
    (c.withDisable b).disableAutoGen = b := by
  cases c
  rfl

theorem withDisable_withDisable (c : Cmd) (b b' : Bool) :
    (c.withDisable b).withDisable b' = c.withDisable b' := by
  cases c
  rfl

theorem initHelp_withDisable (cmd : Cmd) (b : Bool) :
    initHelp (cmd.withDisable b) = (initHelp cmd).withDisable b := by
  cases cmd
  simp only [initHelp, initDefaultHelpCmd, initDefaultHelpFlag, Cmd.withDisable,
    Cmd.commands, Cmd.flags, Cmd.withCommands, Cmd.withFlags]
  split_ifs <;> rfl

theorem mdHead_withDisable (env : Env) (c : Cmd) (name : String) (b : Bool) :
    mdHead env (c.withDisable b) name = mdHead env c name := by
  cases c
  rfl

/-- A benign environment: every formatter resolves, the module loads and
renders a fixed two-line output, flag rendering is empty, the date is
fixed. -/
def envOk : Env where
  factoryOk := fun _ => true
  loadOk := true
  printOk := fun _ => true
  render := fun _ _ => "a\n\nb"
  printDefaults := fun _ => ""
  today := ⟨11, 10, 2026⟩

/-- The same environment with a failing module loader. -/
def envNoLoad : Env := { envOk with loadOk := false }

/-- Both output directories exist. -/
def fsBoth : FS := ⟨["docs", "docs/formats"], []⟩

/-- Only the root docs directory exists: the formats subdirectory is
missing. -/
def fsDocsOnly : FS := ⟨["docs"], []⟩

/-- A childless root command without a kind mark. -/
def rootLeaf : Cmd :=
  .mk "terraform-docs" "root short" "" "" "" true true false false [] [] [] []

/-- A documentable leaf formatter child named json. -/
def childJson : Cmd :=
  .mk "json" "json short" "" "" "" true true false false
    [("kind", "formatter")] [] [] []

/-- A root whose single child is the documentable json formatter. -/
def rootJson : Cmd :=
  .mk "terraform-docs" "root short" "" "" "" true true false false [] [] []
    [childJson]

/-- Does a returned stop value carry a walk-returned error (as opposed to
a log.Fatal exit)? -/
def isErrReturn : Option RunStop → Bool
  | some (.err _) => true
  | _ => false

/-- Does `s` end with `suffix`? -/
def endsWithStr (s suffix : String) : Bool :=
  isPref suffix.data.reverse s.data.reverse

/-- The page text of a successful render. -/
def pageOf : Except RunStop (String × Cmd) → String
  | .ok (p, _) => p
  | .error _ => ""

/-- C1 counterexample tree page: the lone file a childless run emits. -/
theorem c1_files_vs_nodes_counterexample :
    (generate 1 envOk fsBoth rootLeaf "terraform-docs" "" "FORMATS_GUIDE").2.map
        Ev.file = ["docs/FORMATS_GUIDE.md"]
      ∧ docNodesSpec 1 rootLeaf "terraform-docs" = []
      ∧ isOkb (generate 1 envOk fsBoth rootLeaf "terraform-docs" ""
          "FORMATS_GUIDE").1 = true := by
  decide

/-- C1 (amended): the events a successful run emits are a pure function
of the command tree: depth-first over the documentable child chains, one
page per chain node, plus always one page for the root call itself;
nodes beneath non-documentable nodes are skipped. -/
theorem c1_files_pure_function (fuel : Nat) (env : Env) (fs : FS) (cmd : Cmd)
    (path subdir basename : String)
    (h : isOkb (generate fuel env fs cmd path subdir basename).1 = true) :
    (generate fuel env fs cmd path subdir basename).2
      = evSpec fuel cmd path subdir basename := by
  rcases hr : (generate fuel env fs cmd path subdir basename).1 with e | ⟨fs', cmd'⟩
  · rw [hr] at h
    simp [isOkb] at h
  · exact (gen_ok env fuel fs cmd path subdir basename fs' cmd' hr).1

theorem c1_files_pure_function_witness :
    (generate 2 envOk fsBoth rootJson "terraform-docs" "" "FORMATS_GUIDE").2
      = evSpec 2 rootJson "terraform-docs" "" "FORMATS_GUIDE" :=
  c1_files_pure_function 2 envOk fsBoth rootJson "terraform-docs" ""
    "FORMATS_GUIDE" (by decide)

/-- C2 counterexample: with the formats subdirectory missing, the walker
does not create it; creating the child page fails and the run aborts. -/
theorem c2_mkdir_counterexample :
    errOf (generate 2 envOk fsDocsOnly rootJson "terraform-docs" ""
        "FORMATS_GUIDE").1 = some (.err (.fsErr "docs/formats/json.md")) := by
  decide

/-- C2 (amended): the walker never creates directories: a successful run
leaves the directory set unchanged, and every file it creates lies in a
directory that existed before the run began. -/
theorem c2_no_directory_creation (fuel : Nat) (env : Env) (fs : FS) (cmd : Cmd)
    (path subdir basename : String)
    (h : isOkb (generate fuel env fs cmd path subdir basename).1 = true) :
    (fsOf (generate fuel env fs cmd path subdir basename).1).dirs = fs.dirs
    ∧ ∀ ev ∈ (generate fuel env fs cmd path subdir basename).2,
        parentDirOf ev.file ∈ fs.dirs := by
  rcases hr : (generate fuel env fs cmd path subdir basename).1 with e | ⟨fs', cmd'⟩
  · rw [hr] at h
    simp [isOkb] at h
  · have hg := gen_ok env fuel fs cmd path subdir basename fs' cmd' hr
    exact ⟨hg.2.1, hg.2.2.2⟩

theorem c2_no_directory_creation_witness :
    (fsOf (generate 2 envOk fsBoth rootJson "terraform-docs" ""
        "FORMATS_GUIDE").1).dirs = fsBoth.dirs :=
  (c2_no_directory_creation 2 envOk fsBoth rootJson "terraform-docs" ""
    "FORMATS_GUIDE" (by decide)).1

/-- C3 counterexample: the walk mutates the supplied tree: a node that
had no flags comes back from generation with the default help flag. -/
theorem c3_mutation_counterexample :
    rootLeaf.flags = []
      ∧ cmdFlagsOf (generate 1 envOk fsBoth rootLeaf "terraform-docs" ""
          "FORMATS_GUIDE").1 = ["help"] := by
  decide

/-- C3 (amended): the only mutation a successful run applies to the tree
is the default help initialization of every visited node: the returned
tree is exactly `initTree` of the input. -/
theorem c3_mutation_is_help_init (fuel : Nat) (env : Env) (fs : FS) (cmd : Cmd)
    (path subdir basename : String)
    (h : isOkb (generate fuel env fs cmd path subdir basename).1 = true) :
    cmdOf (generate fuel env fs cmd path subdir basename).1 cmd
      = initTree fuel cmd := by
  rcases hr : (generate fuel env fs cmd path subdir basename).1 with e | ⟨fs', cmd'⟩
  · rw [hr] at h
    simp [isOkb] at h
  · exact (gen_ok env fuel fs cmd path subdir basename fs' cmd' hr).2.2.1

theorem c3_mutation_is_help_init_witness :
    cmdOf (generate 2 envOk fsBoth rootJson "terraform-docs" ""
        "FORMATS_GUIDE").1 rootJson = initTree 2 rootJson :=
  c3_mutation_is_help_init 2 envOk fsBoth rootJson "terraform-docs" ""
    "FORMATS_GUIDE" (by decide)

/-- C4 counterexample: a module-load failure does not come back as a
returned error value: the run stops with the log.Fatal outcome. -/
theorem c4_load_error_counterexample :
    errOf (generate 2 envNoLoad fsBoth rootJson "terraform-docs" ""
        "FORMATS_GUIDE").1 = some (.fatal "module load error")
      ∧ isErrReturn (errOf (generate 2 envNoLoad fsBoth rootJson
          "terraform-docs" "" "FORMATS_GUIDE").1) = false := by
  decide

/-- C4 (amended): filesystem and formatter errors travel up the walk as
returned error values, while the module-load failure is the log.Fatal
exit, which can only arise when the loader fails; any failing
documentable child stops the loop before its siblings, and every failing
run exits non-zero. -/
theorem c4_error_paths :
    (∀ (fuel : Nat) (env : Env) (fs : FS) (cmd : Cmd)
        (path subdir basename m : String),
      errOf (generate fuel env fs cmd path subdir basename).1
          = some (.fatal m) →
        env.loadOk = false)
    ∧ (∀ (rec : FS → Cmd → String → String → String →
          Except RunStop (FS × Cmd) × List Ev)
        (fs : FS) (c : Cmd) (cs : List Cmd) (path : String) (e : RunStop)
        (tr : List Ev),
        docFilter c = true →
        rec fs c (path ++ " " ++ c.name) formatdir
            (derivedName (path ++ " " ++ c.name)) = (.error e, tr) →
        genList rec fs (c :: cs) path = (.error e, tr))
    ∧ (∀ (fuel : Nat) (env : Env) (fs : FS) (root : Cmd) (rootPath : String)
        (e : RunStop),
        (generate fuel env fs root rootPath "" "FORMATS_GUIDE").1 = .error e →
        mainExit fuel env fs root rootPath = 1) := by
  refine ⟨?_, ?_, ?_⟩
  · intro fuel env fs cmd path subdir basename m h
    by_cases hl : env.loadOk = true
    · exfalso
      rcases hr : (generate fuel env fs cmd path subdir basename).1 with e | pr
      · rw [hr] at h
        simp only [errOf, Option.some.injEq] at h
        subst h
        exact gen_no_fatal env hl fuel fs cmd path subdir basename m hr
      · rw [hr] at h
        simp [errOf] at h
    · cases hx : env.loadOk
      · rfl
      · exact absurd hx hl
  · intro rec fs c cs path e tr hdf h
    exact genList_err_stops rec fs c cs path e tr hdf h
  · intro fuel env fs root rootPath e h
    unfold mainExit
    rw [h]

theorem c4_error_paths_witness : envNoLoad.loadOk = false :=
  c4_error_paths.1 2 envNoLoad fsBoth rootJson "terraform-docs" ""
    "FORMATS_GUIDE" "module load error" (by decide)

/-- C5 counterexample: derivation removes every occurrence of
"terraform-docs-", not only a leading prefix, so it disagrees with
prefix-stripping and collides on prefix-strip-distinct names. -/
theorem c5_occurrence_removal_counterexample :
    derivedName "terraform-docs terraform-docs-x" = "x"
      ∧ specPrefixStrip "terraform-docs terraform-docs-x" = "terraform-docs-x"
      ∧ derivedName "a terraform-docs-b" = derivedName "a b"
      ∧ specPrefixStrip "a terraform-docs-b" ≠ specPrefixStrip "a b" := by
  decide

/-- C5 (amended): filename derivation hyphenates the command path and
removes every occurrence of "terraform-docs-" (equivalently, splits on it
and concatenates the pieces); the two spec examples hold, and the
function identifies exactly the names its occurrence removal
identifies. -/
theorem c5_derived_name :
    (∀ s : String, derivedName s
        = joinStr (goSplit (goReplace s " " "-") "terraform-docs-"))
    ∧ derivedName "terraform-docs markdown table" = "markdown-table"
    ∧ derivedName "terraform-docs json" = "json"
    ∧ ∀ a b : String,
        derivedName a = derivedName b ↔
          joinStr (goSplit (goReplace a " " "-") "terraform-docs-")
            = joinStr (goSplit (goReplace b " " "-") "terraform-docs-") := by
  have key : ∀ s : String, derivedName s
      = joinStr (goSplit (goReplace s " " "-") "terraform-docs-") := by
    intro s
    apply String.ext
    show replaceAllL tdL [] (goReplace s " " "-").data
        = (joinStr (goSplit (goReplace s " " "-") "terraform-docs-")).data
    rw [joinStr_data]
    unfold goSplit
    rw [List.map_map, replaceAllL_eq_interL, interL_nil_sep,
      show String.data ∘ String.mk = id from rfl, List.map_id]
    rfl
  refine ⟨key, by decide, by decide, ?_⟩
  intro a b
  rw [key a, key b]

instance exceptDecEq {e a : Type} [DecidableEq e] [DecidableEq a] :
    DecidableEq (Except e a)
  | .ok x, .ok y =>
    if h : x = y then .isTrue (by rw [h]) else .isFalse (by simp [h])
  | .ok _, .error _ => .isFalse (by simp)
  | .error _, .ok _ => .isFalse (by simp)
  | .error x, .error y =>
    if h : x = y then .isTrue (by rw [h]) else .isFalse (by simp [h])

/-- The concrete example page used by the C6 witness. -/
def pageC6 : String :=
  "### Example\n\nGiven the [`examples`](/examples/) module:\n\n```shell\nterraform-docs json ./examples/\n```\n\ngenerates the following output:\n\n    a\n\n    b\n\n"

/-- C6: the example embedder splits the rendered output on line breaks
and re-emits it with every non-empty line indented by exactly four spaces
and every blank line preserved as an empty line, inside the Example
section of the page. -/
theorem c6_example_indent :
    (∀ out : String, goSplit (exampleBody out) "\n"
        = (goSplit out "\n").map indentLine ++ [""])
    ∧ ∀ (env : Env) (name page : String), printExample env name = .ok page →
        page = exampleHeader name
          ++ exampleBody (env.render (goReplace name "terraform-docs " "") false)
          ++ "\n" := by
  refine ⟨exampleBody_lines, ?_⟩
  intro env name page h
  unfold printExample at h
  split at h
  · simp at h
  · split at h
    · simp at h
    · split at h
      · simp at h
      · simp only [Except.ok.injEq] at h
        exact h.symm

theorem c6_example_indent_witness :
    pageC6 = exampleHeader "terraform-docs json"
      ++ exampleBody (envOk.render
          (goReplace "terraform-docs json" "terraform-docs " "") false)
      ++ "\n" :=
  c6_example_indent.2 envOk "terraform-docs json" pageC6 (by decide)

/-- The shell line of the pretty Example section. -/
def lineC7 : String := "terraform-docs pretty --no-color ./examples/"

set_option maxRecDepth 100000 in
/-- C7 counterexample: the Example section shell line does not end with
the no-color flag (no line of the section does): it ends with the
./examples/ argument. -/
theorem c7_shell_line_counterexample :
    (goSplit (exampleHeader "terraform-docs pretty") "\n").contains lineC7 = true
      ∧ (goSplit (exampleHeader "terraform-docs pretty") "\n").all
          (fun l => !endsWithStr l "--no-color") = true := by
  decide

/-- C7 (amended): the pretty page Example section contains the shell line
"terraform-docs pretty --no-color ./examples/" (the no-color flag sits
between the command name and the ./examples/ argument) and embeds the
pretty rendering produced with color disabled. -/
theorem c7_pretty_page (env : Env)
    (h1 : env.factoryOk "pretty" = true) (h2 : env.loadOk = true)
    (h3 : env.printOk "pretty" = true) :
    printExample env "terraform-docs pretty"
        = .ok (exampleHeader "terraform-docs pretty"
            ++ exampleBody (env.render "pretty" false) ++ "\n")
      ∧ exampleHeader "terraform-docs pretty"
          = "### Example\n\nGiven the [`examples`](/examples/) module:\n\n"
            ++ "```shell\nterraform-docs pretty --no-color ./examples/\n```\n\n"
            ++ "generates the following output:\n\n" := by
  constructor
  · have hrep : goReplace "terraform-docs pretty" "terraform-docs " ""
        = "pretty" := by decide
    unfold printExample
    rw [hrep, h1, h2, h3]
    simp
  · decide

theorem c7_pretty_page_witness :
    printExample envOk "terraform-docs pretty"
      = .ok (exampleHeader "terraform-docs pretty"
          ++ exampleBody (envOk.render "pretty" false) ++ "\n") :=
  (c7_pretty_page envOk (by decide) (by decide) (by decide)).1

/-- C8: the SEE ALSO index uses the same documentable predicate as the
walker and its links carry exactly the basenames under which the walker
emits the children: one bullet per documentable child in declared order
with target `derivedName(child) ++ ".md"`, one nested bullet per
documentable grandchild, and nothing for filtered-out children. -/
theorem c8_seealso_consistency (children : List Cmd) (parentPath : String) :
    printSeeAlso children parentPath
      = "### SEE ALSO\n\n"
        ++ joinStr ((children.filter docFilter).map (fun child =>
            bulletStr "" (parentPath ++ " " ++ child.name) child.short
                (derivedName (parentPath ++ " " ++ child.name) ++ ".md")
              ++ joinStr ((child.commands.filter docFilter).map (fun g =>
                  bulletStr "  " (parentPath ++ " " ++ child.name ++ " " ++ g.name)
                    g.short
                    (derivedName (parentPath ++ " " ++ child.name ++ " " ++ g.name)
                      ++ ".md")))))
        ++ "\n" := by
  unfold printSeeAlso
  simp only [seeAlsoLink_eq, joinStr_filter_map]

/-- The concrete page used by the C9 counterexample. -/
def pageC9 : String :=
  "## terraform-docs\n\nroot short\n\n### Synopsis\n\nroot short\n\n```\n\n```\n\n### Options\n\n```\n```\n\n### Example\n\nGiven the [`examples`](/examples/) module:\n\n```shell\nterraform-docs ./examples/\n```\n\ngenerates the following output:\n\n    a\n\n    b\n\n###### Auto generated by spf13/cobra on 11-Oct-2026\n"

set_option maxRecDepth 100000 in
/-- C9 counterexample: the trailing line of a generated page reads
"###### Auto generated by spf13/cobra on <date>", which is not of the
claimed form "###### Auto generated on <date>". -/
theorem c9_tagline_counterexample :
    pageOf (generateMarkdown envOk rootLeaf "terraform-docs") = pageC9
      ∧ (goSplit pageC9 "\n").reverse.getD 1 ""
          = "###### Auto generated by spf13/cobra on 11-Oct-2026"
      ∧ isPref "###### Auto generated on ".data
          "###### Auto generated by spf13/cobra on 11-Oct-2026".data = false := by
  decide

/-- C9 (amended): unless disabled, the page ends with the line
"###### Auto generated by spf13/cobra on <date>" with the date formatted
day-abbreviated-month-four-digit-year; with the tag disabled the page is
identical except that this trailing line is absent. -/
theorem c9_autogen_tag (env : Env) (cmd : Cmd) (name : String) :
    tagline env = "###### Auto generated by spf13/cobra on "
        ++ formatDate env.today ++ "\n"
    ∧ formatDate env.today
        = natToStr env.today.day ++ "-"
          ++ monthAbbrevs.getD (env.today.month - 1) "Jan" ++ "-"
          ++ pad4 env.today.year
    ∧ generateMarkdown env (cmd.withDisable false) name
        = (generateMarkdown env (cmd.withDisable true) name).map
            (fun pc => (pc.1 ++ tagline env, pc.2.withDisable false)) := by
  refine ⟨rfl, rfl, ?_⟩
  unfold generateMarkdown
  rw [initHelp_withDisable, initHelp_withDisable]
  simp only [withDisable_commands, mdHead_withDisable, withDisable_disable,
    withDisable_withDisable]
  rcases hts : (if (initHelp cmd).commands.isEmpty then printExample env name
      else .ok (printSeeAlso (initHelp cmd).commands name)) with e | t
  · simp [Except.map]
  · simp [Except.map, withDisable_withDisable, sapp_empty, sapp_assoc]

/-- C10: on success the node own creation is the final event, after the
complete traces of the documentable child subtrees, whose events all
belong to strict descendants; when the child loop fails the walker stops
with only child-subtree events, so the node own file was never created. -/
theorem c10_children_before_parent (fuel : Nat) (env : Env) (fs : FS)
    (cmd : Cmd) (path subdir basename : String) :
    (isOkb (generate (fuel + 1) env fs cmd path subdir basename).1 = true →
      (generate (fuel + 1) env fs cmd path subdir basename).2
          = (genList (generate fuel env) fs cmd.commands path).2
            ++ [⟨path, pageFile subdir basename⟩]
        ∧ ∀ ev ∈ (genList (generate fuel env) fs cmd.commands path).2,
            isPref (path ++ " ").data ev.node.data = true ∧ ev.node ≠ path)
    ∧ ∀ (e : RunStop),
        (genList (generate fuel env) fs cmd.commands path).1 = .error e →
          generate (fuel + 1) env fs cmd path subdir basename
              = (.error e, (genList (generate fuel env) fs cmd.commands path).2)
            ∧ ∀ ev ∈ (genList (generate fuel env) fs cmd.commands path).2,
                ev.node ≠ path := by
  have hpref : ∀ ev ∈ (genList (generate fuel env) fs cmd.commands path).2,
      isPref (path ++ " ").data ev.node.data = true :=
    genList_prefix_aux (generate fuel env)
      (fun fs c p s b => gen_node_paths env fuel fs c p s b) cmd.commands fs path
  constructor
  · intro hok
    rcases hr : (generate (fuel + 1) env fs cmd path subdir basename).1
        with e | ⟨fs', cmd'⟩
    · rw [hr] at hok
      simp [isOkb] at hok
    · have hg := gen_ok env (fuel + 1) fs cmd path subdir basename fs' cmd' hr
      rcases hgl : genList (generate fuel env) fs cmd.commands path
          with ⟨glr, gltr⟩
      cases glr with
      | error e =>
        have hstep := generate_children_err env fuel fs cmd path subdir basename e
          (by rw [hgl])
        rw [hstep] at hr
        simp at hr
      | ok pr =>
        obtain ⟨fs1, cs1⟩ := pr
        have hq := genList_ok_aux (generate fuel env) fuel
          (fun fs c p s b fs' c' h => gen_ok env fuel fs c p s b fs' c' h)
          cmd.commands fs path fs1 cs1 (by rw [hgl])
        rw [hgl] at hq
        have h1 : gltr = ((cmd.commands.filter docFilter).map (fun c =>
            evSpec fuel c (path ++ " " ++ c.name) formatdir
              (derivedName (path ++ " " ++ c.name)))).flatten := hq.1
        refine ⟨?_, ?_⟩
        · rw [hg.1]
          show evSpec (fuel + 1) cmd path subdir basename = gltr ++ _
          rw [h1]
          simp [evSpec]
        · intro ev hin
          have hp : isPref (path ++ " ").data ev.node.data = true := by
            apply hpref
            rw [hgl]
            exact hin
          exact ⟨hp, node_ne_of_pref hp⟩
  · intro e hgl1
    refine ⟨generate_children_err env fuel fs cmd path subdir basename e hgl1, ?_⟩
    intro ev hin
    exact node_ne_of_pref (hpref ev hin)

theorem c10_children_before_parent_witness :
    (generate 2 envOk fsBoth rootJson "terraform-docs" "" "FORMATS_GUIDE").2
      = (genList (generate 1 envOk) fsBoth rootJson.commands "terraform-docs").2
        ++ [⟨"terraform-docs", pageFile "" "FORMATS_GUIDE"⟩] :=
  ((c10_children_before_parent 1 envOk fsBoth rootJson "terraform-docs" ""
    "FORMATS_GUIDE").1 (by decide)).1

end TfDocs
